import Mathlib

/-!
Verification of the streaming-chat backend: the incremental sentence
segmenter, the SSE event pipeline, the sliding-window rate limiter, the
model-identifier validation and the model-switching operation.

Strings are modelled as `List Char`.  Each definition is a direct
translation of the corresponding Python function; the source location is
given in its doc comment.
-/

/-- Boundary characters of the sentence pattern `[.!?;:,]` compiled in
`generate_stream_with_sentence_chunking`
(backend_fastapi/services/litellm_service.py, line 231). -/
def boundaryChar (c : Char) : Bool :=
  c == '.' || c == '!' || c == '?' || c == ';' || c == ':' || c == ','

/-- Whitespace as matched by the regex class `\s` and stripped by
`str.strip()` (ASCII part, which is all the claims exercise):
space, tab, newline, carriage return, vertical tab, form feed. -/
def pyWhitespace (c : Char) : Bool :=
  c == ' ' || c == '\t' || c == '\n' || c == '\r' || c == '\x0b' || c == '\x0c'

/-- Python `str.strip()`: remove leading and trailing whitespace. -/
def stripChars (l : List Char) : List Char :=
  ((l.dropWhile pyWhitespace).reverse.dropWhile pyWhitespace).reverse

/-- End position of the leftmost match of the regex `[.!?;:,](?:\s|$)` as
used by `sentence_pattern.search` (litellm_service.py, line 240): a
boundary character immediately followed by a whitespace character
(match end is past the whitespace) or standing at the very end of the
string (the `$` alternative, match end is past the boundary character). -/
def sentenceMatchEnd : List Char → Option Nat
  | [] => none
  | [c] => if boundaryChar c then some 1 else none
  | c :: d :: rest =>
    if boundaryChar c && pyWhitespace d then some 2
    else
      match sentenceMatchEnd (d :: rest) with
      | some n => some (n + 1)
      | none => none

/-- One `content` step of `generate_stream_with_sentence_chunking`
(litellm_service.py, lines 236-259): append the delta to
`sentence_buffer`, search for the first boundary match, and on a match
cut the buffer at the match end and emit the stripped prefix as the
completed sentence (the buffer is cut even when the stripped prefix is
empty, in which case nothing is emitted). -/
def segFeed (buffer chunk : List Char) : List Char × Option (List Char) :=
  let b := buffer ++ chunk
  match sentenceMatchEnd b with
  | none => (b, none)
  | some e =>
    let completed := stripChars (b.take e)
    let rest := b.drop e
    if completed = [] then (rest, none) else (rest, some completed)

/-- The `done` branch of `generate_stream_with_sentence_chunking`
(litellm_service.py, lines 261-273): flush the remaining buffer, emitting
it stripped when it is non-empty after stripping. -/
def segFlush (buffer : List Char) : Option (List Char) :=
  if stripChars buffer = [] then none else some (stripChars buffer)

/-- Run a sequence of `feed` calls from a given buffer, returning the
final buffer and the completed units in emission order. -/
def segFeedAll (buffer : List Char) : List (List Char) → List Char × List (List Char)
  | [] => (buffer, [])
  | s :: rest =>
    let f := segFeed buffer s
    let r := segFeedAll f.1 rest
    (r.1, f.2.toList ++ r.2)

/-- All completed units of a whole session: the units emitted by the
`feed` calls followed by the final flushed unit, if any. -/
def segUnits (chunks : List (List Char)) : List (List Char) :=
  let r := segFeedAll [] chunks
  r.2 ++ (segFlush r.1).toList

/-- Number of character positions the regex engine examines while
searching a buffer: one per start position tried, stopping at the first
match. -/
def scanCost : List Char → Nat
  | [] => 0
  | [_] => 1
  | c :: d :: rest =>
    if boundaryChar c && pyWhitespace d then 1
    else 1 + scanCost (d :: rest)

/-- Total scan work of a sequence of `feed` calls: the source re-runs
`sentence_pattern.search` over the whole accumulated `sentence_buffer`
on every `content` chunk (litellm_service.py, line 240), so each feed
pays the search cost of the full current buffer. -/
def segRunCost : List Char → List (List Char) → Nat
  | _, [] => 0
  | buf, s :: rest => scanCost (buf ++ s) + segRunCost (segFeed buf s).1 rest

/-! ## Rate limiter

`check_rate_limit` in backend_fastapi/api/deps.py (lines 47-92) and the
identical `check_rate_limit_async` in tts-server.py (lines 115-137):
per-key sliding-window admission, executed under the key's lock.
Timestamps are modelled as integers (seconds). -/

/-- Outcome of one admission check: allow, or deny carrying the
`remaining_time` reported in the 429 detail string. -/
inductive RateDecision
  | allow
  | deny (retry_after : Int)
deriving DecidableEq

/-- The pruning step (deps.py, lines 74-77): keep only timestamps
strictly newer than `window_start`. -/
def pruneWindow (st : List Int) (windowStart : Int) : List Int :=
  st.filter (fun t => decide (windowStart < t))

/-- One admission check for a single key (deps.py, lines 69-92): prune
the stored timestamps, deny when the pruned count has reached
`max_requests` — reporting `storage[0] - window_start` seconds, where
`storage[0]` is the oldest surviving timestamp — otherwise record `now`
and allow.  (With `max_requests = 0` the source would index an empty
list; `headD` keeps the definition total, and every claim uses
`max_requests ≥ 1`, where the list is provably non-empty.)  Returns the
decision together with the stored list after the call. -/
def check_rate_limit (st : List Int) (now : Int) (maxRequests : Nat)
    (windowSeconds : Int) : RateDecision × List Int :=
  let windowStart := now - windowSeconds
  let pruned := pruneWindow st windowStart
  if maxRequests ≤ pruned.length then
    (RateDecision.deny (pruned.headD 0 - windowStart), pruned)
  else
    (RateDecision.allow, pruned ++ [now])

/-- Run a sequence of admission checks for one key at the given times,
threading the stored timestamp list, and collect the decisions. -/
def rateLimitRun (st : List Int) (maxRequests : Nat) (windowSeconds : Int) :
    List Int → List RateDecision
  | [] => []
  | t :: ts =>
    let r := check_rate_limit st t maxRequests windowSeconds
    r.1 :: rateLimitRun r.2 maxRequests windowSeconds ts

/-- Whether a decision admits the request. -/
def isAllow : RateDecision → Bool
  | RateDecision.allow => true
  | RateDecision.deny _ => false

/-! ## Security validation (backend_fastapi/core/security.py) -/

/-- The control characters removed by `sanitize_user_input`
(security.py, line 98): `[\x00-\x08\x0b\x0c\x0e-\x1f\x7f]`. -/
def controlChar (c : Char) : Bool :=
  c.val ≤ 0x08 || c.val == 0x0b || c.val == 0x0c ||
    (0x0e ≤ c.val && c.val ≤ 0x1f) || c.val == 0x7f

/-- `sanitize_user_input` (security.py, lines 80-100): truncate to
`max_length`, remove control characters, strip surrounding whitespace. -/
def sanitize_user_input (text : List Char) (maxLength : Nat) : List Char :=
  stripChars ((text.take maxLength).filter (fun c => !controlChar c))

/-- The character class `[a-zA-Z0-9/_.-]` of the model-identifier regex
(security.py, line 117). -/
def modelClassChar (c : Char) : Bool :=
  c.isAlpha || c.isDigit || c == '/' || c == '_' || c == '.' || c == '-'

/-- Python `re.match(r"^[a-zA-Z0-9/_.-]+$", model)`: one or more class
characters spanning the whole string; the `$` anchor also matches just
before a single trailing newline. -/
def regexMatchModel (m : List Char) : Bool :=
  (!m.isEmpty && m.all modelClassChar) ||
    (!m.dropLast.isEmpty && m.getLast? == some '\n' && m.dropLast.all modelClassChar)

/-- `sanitize_model_identifier` (security.py, lines 103-124): empty,
non-matching, or over-long identifiers yield `none`; valid ones are
returned unchanged. -/
def sanitize_model_identifier (model : List Char) : Option (List Char) :=
  if model = [] then none
  else if !regexMatchModel model then none
  else if 100 < model.length then none
  else some model

/-- `sanitize_chat_message` (security.py, lines 201-232): lower-case and
strip the role, require one of `user`/`assistant`/`system`, sanitize the
content (max length 10000) and reject the message when the sanitized
content is empty. -/
def sanitize_chat_message (role content : List Char) :
    Option (List Char × List Char) :=
  let r := (stripChars role).map Char.toLower
  if r = "user".toList ∨ r = "assistant".toList ∨ r = "system".toList then
    let sc := sanitize_user_input content 10000
    if sc = [] then none else some (r, sc)
  else none

/-- Outcome of `character_manager.load_character`, an external
collaborator of the `stream_chat` handler (chat.py, lines 144-158):
success with a system prompt, `FileNotFoundError`, or `ValueError`. -/
inductive CharacterLoad
  | ok (system_prompt : List Char)
  | notFound
  | invalid
deriving DecidableEq

/-- The pre-stream part of the `stream_chat` handler (chat.py, lines
121-162), up to the point where the streaming response is created:
sanitize the messages and reject with 400 when none survive; sanitize
the model identifier, an invalid one being only logged — the handler
continues with no model override; resolve the character (404/400 on
load failure, else its system prompt, falling back to the active
character's prompt).  `Except.ok` means the handler proceeds to return
the `StreamingResponse`, i.e. a streaming session is started. -/
def stream_chat_precheck (charLoad : List Char → CharacterLoad)
    (activePrompt : Option (List Char))
    (messages : List (List Char × List Char))
    (model : Option (List Char))
    (character_id : Option (List Char)) :
    Except Nat (List (List Char × List Char) × Option (List Char) × Option (List Char)) :=
  let sanitized := messages.filterMap (fun rc => sanitize_chat_message rc.1 rc.2)
  if sanitized = [] then Except.error 400
  else
    let m : Option (List Char) :=
      match model with
      | none => none
      | some mm => sanitize_model_identifier mm
    match character_id with
    | some cid =>
      match charLoad cid with
      | CharacterLoad.ok sp => Except.ok (sanitized, m, some sp)
      | CharacterLoad.notFound => Except.error 404
      | CharacterLoad.invalid => Except.error 400
    | none => Except.ok (sanitized, m, activePrompt)

/-! ## LiteLLM service state and `switch_model` -/

/-- Python `str.split(sep)` for a one-character separator: never
collapses adjacent separators and yields `[""]` on the empty string. -/
def pySplit (sep : Char) : List Char → List (List Char)
  | [] => [[]]
  | c :: rest =>
    if c = sep then [] :: pySplit sep rest
    else
      match pySplit sep rest with
      | [] => [[c]]
      | p :: ps => (c :: p) :: ps

/-- The mutable state of `LiteLLMService` (litellm_service.py, lines
27-29): the active model string and the HTTP client handle (opaque,
represented by an identifier — `switch_model` never touches it). -/
structure LiteLLMServiceState where
  active_model : List Char
  http_client : Nat
deriving DecidableEq

/-- The provider names accepted by `switch_model`
(litellm_service.py, line 333). -/
def allowedProviders : List (List Char) :=
  [("ollama".toList), ("lmstudio".toList), ("openai".toList), ("anthropic".toList)]

/-- The `provider` field of `_extract_provider_info`
(litellm_service.py, lines 31-41): the first `/`-separated segment when
the string contains a slash, and the default `"openai"` otherwise. -/
def extract_provider (model : List Char) : List Char :=
  let parts := pySplit '/' model
  if 1 < parts.length then parts.headD [] else "openai".toList

/-- `switch_model` (litellm_service.py, lines 330-337): accept and store
the new model when its extracted provider is allowed, otherwise leave
the state unchanged. -/
def switch_model (svc : LiteLLMServiceState) (new_model : List Char) :
    Bool × LiteLLMServiceState :=
  if extract_provider new_model ∈ allowedProviders then
    (true, ⟨new_model, svc.http_client⟩)
  else
    (false, svc)

/-! ## SSE event pipeline

`generate_stream` (litellm_service.py, lines 132-206),
`generate_stream_with_sentence_chunking` (lines 208-278) and
`generate_sse` inside `stream_chat` (chat.py, lines 168-264).  The
provider stream is modelled as the finite list of chunks the `async
for` loop receives before the iterator stops, together with how it
stops: normal exhaustion, an exception (caught by `except Exception`
and turned into an `error` chunk), or cancellation
(`asyncio.CancelledError` is *not* an `Exception`, so it propagates and
the generator ends without yielding anything further). -/

/-- One provider chunk: the optional `delta.content` and whether
`finish_reason` is set (a chunk with empty `choices` is a chunk with
neither). -/
structure ProviderChunk where
  content : Option (List Char)
  finish_reason : Bool
deriving DecidableEq

/-- How the provider's async iterator stops when it is not stopped early
by a `finish_reason` chunk. -/
inductive StreamEnd
  | exhausted
  | raised
  | cancelled
deriving DecidableEq

/-- Outbound events.  `content` carries the delta text and, when the
segmenter closed a unit on this delta, the completed sentence
(`sentence_complete`/`sentence` fields of the wire event); the route
maps each yielded chunk to one SSE frame of the same kind, so these
constructors are exactly the wire event names. -/
inductive SSEEvent
  | provider_connected
  | content (text : List Char) (sentence : Option (List Char))
  | done
  | error
  | fatal_error
deriving DecidableEq

/-- The `content` event produced for one provider chunk
(litellm_service.py, lines 176-188): nothing when the delta is absent or
empty (`if content:`), else one `content` event with the sanitized
delta. -/
def deltaEvents (san : List Char → List Char) (ch : ProviderChunk) :
    List SSEEvent :=
  match ch.content with
  | some c => if c = [] then [] else [SSEEvent.content (san c) none]
  | none => []

/-- `generate_stream` (litellm_service.py, lines 174-206): for each
chunk, yield a `content` event when the delta is non-empty (sanitized
through `san`, abstracting `sanitize_llm_output`), then yield `done` and
stop at the first `finish_reason`.  If the iterator raises an ordinary
exception, `except Exception` yields a single `error` event; exhaustion
and cancellation end the generator silently. -/
def generate_stream (san : List Char → List Char) :
    List ProviderChunk → StreamEnd → List SSEEvent
  | [], StreamEnd.raised => [SSEEvent.error]
  | [], _ => []
  | ch :: rest, ek =>
    if ch.finish_reason then deltaEvents san ch ++ [SSEEvent.done]
    else deltaEvents san ch ++ generate_stream san rest ek

/-- One step of `generate_stream_with_sentence_chunking`
(litellm_service.py, lines 235-278): a `content` event goes through the
segmenter and is re-emitted, tagged with the completed sentence if one
closed; a `done` event first flushes the buffer (as a `content` event
with empty text carrying the flushed sentence) and is then passed on;
every other event passes through.  Returns the emitted events and the
new buffer. -/
def chunkingStep (buf : List Char) : SSEEvent → List SSEEvent × List Char
  | SSEEvent.content c _ =>
    match segFeed buf c with
    | (b2, some u) => ([SSEEvent.content c (some u)], b2)
    | (b2, none) => ([SSEEvent.content c none], b2)
  | SSEEvent.done =>
    (match segFlush buf with
     | some u => [SSEEvent.content [] (some u), SSEEvent.done]
     | none => [SSEEvent.done], buf)
  | e => ([e], buf)

/-- Fold `chunkingStep` over an event list, threading the buffer. -/
def chunkingRun (buf : List Char) : List SSEEvent → List SSEEvent × List Char
  | [] => ([], buf)
  | e :: rest =>
    let s := chunkingStep buf e
    let r := chunkingRun s.2 rest
    (s.1 ++ r.1, r.2)

/-- `generate_stream_with_sentence_chunking` (litellm_service.py, lines
208-278): the chunking layer applied to `generate_stream`'s output,
starting from an empty `sentence_buffer`. -/
def generate_stream_with_sentence_chunking (san : List Char → List Char)
    (chunks : List ProviderChunk) (ek : StreamEnd) : List SSEEvent :=
  (chunkingRun [] (generate_stream san chunks ek)).1

/-- `generate_sse` (chat.py, lines 168-264): when the pre-stream health
probe fails, a single `error` frame (`provider_offline`); otherwise a
`provider_connected` frame followed by one frame per chunk of the
chunking generator, of the same kind.  `fatal_error` is emitted only
when an exception escapes the body; no such exception source exists in
this model (cancellation is not an `Exception` and skips the handler). -/
def generate_sse (san : List Char → List Char) (connected : Bool)
    (chunks : List ProviderChunk) (ek : StreamEnd) : List SSEEvent :=
  if connected then
    SSEEvent.provider_connected :: generate_stream_with_sentence_chunking san chunks ek
  else
    [SSEEvent.error]

/-- Terminal events of the wire protocol. -/
def isTerminalEv : SSEEvent → Bool
  | SSEEvent.done => true
  | SSEEvent.error => true
  | SSEEvent.fatal_error => true
  | _ => false

/-- Content events of the wire protocol. -/
def isContentEv : SSEEvent → Bool
  | SSEEvent.content _ _ => true
  | _ => false

/-- The terminal tail of `generate_stream`'s output, determined by the
chunk list and the end kind: `done` once a `finish_reason` chunk is hit,
else `error` for an ordinary exception, else nothing. -/
def gsEnd (chunks : List ProviderChunk) (ek : StreamEnd) : List SSEEvent :=
  if chunks.any (fun c => c.finish_reason) then [SSEEvent.done]
  else if ek = StreamEnd.raised then [SSEEvent.error]
  else []

/-! ## Helper lemmas: characters and stripping -/

/-- A boundary character is not whitespace. -/
theorem boundary_not_ws (c : Char) (h : boundaryChar c = true) :
    pyWhitespace c = false := by
  simp only [boundaryChar, Bool.or_eq_true, beq_iff_eq] at h
  rcases h with ((((h | h) | h) | h) | h) | h <;> subst h <;> decide

/-- A whitespace character is not a boundary character. -/
theorem ws_not_boundary (c : Char) (h : pyWhitespace c = true) :
    boundaryChar c = false := by
  simp only [pyWhitespace, Bool.or_eq_true, beq_iff_eq] at h
  rcases h with ((((h | h) | h) | h) | h) | h <;> subst h <;> decide

/-- Dropping leading whitespace does not change the non-whitespace
characters. -/
theorem filter_nonWs_dropWhile (l : List Char) :
    (l.dropWhile pyWhitespace).filter (fun c => !pyWhitespace c)
      = l.filter (fun c => !pyWhitespace c) := by
  induction l with
  | nil => rfl
  | cons c t ih =>
    by_cases h : pyWhitespace c = true
    · rw [List.dropWhile_cons]
      simp [h, ih]
    · rw [List.dropWhile_cons]
      simp [h]

/-- Stripping does not change the non-whitespace characters. -/
theorem filter_nonWs_strip (l : List Char) :
    (stripChars l).filter (fun c => !pyWhitespace c)
      = l.filter (fun c => !pyWhitespace c) := by
  unfold stripChars
  rw [List.filter_reverse, filter_nonWs_dropWhile, List.filter_reverse,
    filter_nonWs_dropWhile, List.reverse_reverse]

/-- A list that strips to nothing has no non-whitespace characters. -/
theorem strip_eq_nil_filter (l : List Char) (h : stripChars l = []) :
    l.filter (fun c => !pyWhitespace c) = [] := by
  rw [← filter_nonWs_strip, h]
  rfl

/-- Dropping leading whitespace does not change whether a boundary
character occurs. -/
theorem any_boundary_dropWhile (l : List Char) :
    (l.dropWhile pyWhitespace).any boundaryChar = l.any boundaryChar := by
  induction l with
  | nil => rfl
  | cons c t ih =>
    by_cases h : pyWhitespace c = true
    · rw [List.dropWhile_cons]
      simp [h, ih, ws_not_boundary c h]
    · rw [List.dropWhile_cons]
      simp [h]

/-- Stripping does not change whether a boundary character occurs. -/
theorem any_boundary_strip (l : List Char) :
    (stripChars l).any boundaryChar = l.any boundaryChar := by
  unfold stripChars
  rw [List.any_reverse, any_boundary_dropWhile, List.any_reverse,
    any_boundary_dropWhile]

/-- A list containing a boundary character does not strip to nothing. -/
theorem strip_ne_nil_of_any (l : List Char) (h : l.any boundaryChar = true) :
    stripChars l ≠ [] := by
  intro hnil
  have := any_boundary_strip l
  rw [hnil, h] at this
  simp at this

/-! ## Helper lemmas: the sentence pattern -/

/-- If the buffer ends in a boundary character, the pattern matches
somewhere (at the latest at the last position, via the `$`
alternative). -/
theorem sentenceMatchEnd_isSome_of_last (l : List Char) (c : Char)
    (hl : l.getLast? = some c) (hb : boundaryChar c = true) :
    (sentenceMatchEnd l).isSome = true := by
  induction l with
  | nil => simp at hl
  | cons a t ih =>
    cases t with
    | nil =>
      have ha : a = c := by simpa using hl
      subst ha
      simp [sentenceMatchEnd, hb]
    | cons d rest =>
      have hl2 : (d :: rest).getLast? = some c := by
        rwa [List.getLast?_cons_cons] at hl
      have hsome := ih hl2
      simp only [sentenceMatchEnd]
      by_cases h : (boundaryChar a && pyWhitespace d) = true
      · simp [h]
      · simp only [h, if_false]
        cases hm : sentenceMatchEnd (d :: rest) with
        | none => rw [hm] at hsome; simp at hsome
        | some n => simp

/-- The matched prefix always contains a boundary character. -/
theorem sentenceMatchEnd_take_any (l : List Char) (e : Nat)
    (h : sentenceMatchEnd l = some e) :
    (l.take e).any boundaryChar = true := by
  induction l generalizing e with
  | nil => simp [sentenceMatchEnd] at h
  | cons a t ih =>
    cases t with
    | nil =>
      simp only [sentenceMatchEnd] at h
      by_cases hb : boundaryChar a = true
      · rw [if_pos hb] at h
        injection h with he
        subst he
        simp [hb]
      · rw [if_neg hb] at h
        exact absurd h (by simp)
    | cons d rest =>
      simp only [sentenceMatchEnd] at h
      by_cases hc : (boundaryChar a && pyWhitespace d) = true
      · rw [if_pos hc] at h
        injection h with he
        subst he
        have := (Bool.and_eq_true _ _).mp hc
        simp [this.1]
      · rw [if_neg hc] at h
        cases hm : sentenceMatchEnd (d :: rest) with
        | none => rw [hm] at h; exact absurd h (by simp)
        | some n =>
          rw [hm] at h
          injection h with he
          subst he
          have := ih n hm
          simp [List.any_cons, this]

/-! ## Helper lemmas: feeding preserves non-whitespace characters -/

/-- One feed call preserves the non-whitespace characters: the emitted
unit (if any) followed by the new buffer carries exactly the
non-whitespace characters of the old buffer plus the chunk. -/
theorem segFeed_filter (buf s : List Char) :
    (((segFeed buf s).2.getD []) ++ (segFeed buf s).1).filter (fun c => !pyWhitespace c)
      = (buf ++ s).filter (fun c => !pyWhitespace c) := by
  unfold segFeed
  cases hm : sentenceMatchEnd (buf ++ s) with
  | none => simp [hm]
  | some e =>
    simp only [hm]
    by_cases hc : stripChars ((buf ++ s).take e) = []
    · rw [if_pos hc]
      simp only [Option.getD_none, List.nil_append]
      conv_rhs => rw [← List.take_append_drop e (buf ++ s)]
      rw [List.filter_append, strip_eq_nil_filter _ hc, List.nil_append]
    · rw [if_neg hc]
      simp only [Option.getD_some]
      rw [List.filter_append, filter_nonWs_strip, ← List.filter_append,
        List.take_append_drop]

/-- Option-to-list flattening agrees with `getD []`. -/
theorem optFlatten (o : Option (List Char)) : o.toList.flatten = o.getD [] := by
  cases o <;> simp

/-- Feeding a whole chunk sequence preserves the non-whitespace
characters: the units emitted so far followed by the final buffer carry
exactly the non-whitespace characters of the initial buffer plus all
chunks. -/
theorem segFeedAll_filter (chunks : List (List Char)) : ∀ buf : List Char,
    (((segFeedAll buf chunks).2.flatten) ++ (segFeedAll buf chunks).1).filter
        (fun c => !pyWhitespace c)
      = (buf ++ chunks.flatten).filter (fun c => !pyWhitespace c) := by
  induction chunks with
  | nil => intro buf; simp [segFeedAll]
  | cons s rest ih =>
    intro buf
    simp only [segFeedAll, List.flatten_append, List.flatten_cons]
    rw [List.append_assoc, List.filter_append, ih (segFeed buf s).1,
      ← List.filter_append, ← List.append_assoc, optFlatten,
      List.filter_append, segFeed_filter, ← List.filter_append,
      List.append_assoc]

/-- Claim C2, counterexample: a single `feed("Mr.")` immediately emits the
completed unit `"Mr."` — the `$` alternative of the sentence pattern
accepts a boundary character at the end of the buffer, so the feed does
not wait for trailing whitespace or `flush()`. -/
theorem claim_C2_cex :
    (segFeed [] ("Mr.".toList)).2 = some ("Mr.".toList) := by decide

/-- Claim C2, amended: whenever a feed call leaves the combined buffer
ending in a boundary character, that same feed emits a completed unit;
the segmenter never defers a buffer-final boundary to later text or to
`flush()`. -/
theorem claim_C2_amended (buf s : List Char) (c : Char)
    (hl : (buf ++ s).getLast? = some c) (hb : boundaryChar c = true) :
    ((segFeed buf s).2).isSome = true := by
  have hsome := sentenceMatchEnd_isSome_of_last (buf ++ s) c hl hb
  unfold segFeed
  cases hm : sentenceMatchEnd (buf ++ s) with
  | none => rw [hm] at hsome; simp at hsome
  | some e =>
    have hany := sentenceMatchEnd_take_any _ e hm
    have hne : stripChars ((buf ++ s).take e) ≠ [] := strip_ne_nil_of_any _ hany
    simp [hm, hne]

theorem claim_C2_witness :
    ((segFeed [] ("Mr.".toList)).2).isSome = true :=
  claim_C2_amended [] ("Mr.".toList) '.' (by decide) (by decide)

/-- Claim C4, counterexample: feeding `"Hello world. How are"` then
`" you? Fine."` and flushing yields `"How are you?"` as the second unit —
without the leading space the claim expects — because the match consumes
the whitespace after `"world."` and `strip()` removes it from the next
unit's text. -/
theorem claim_C4_cex :
    segUnits [("Hello world. How are".toList), (" you? Fine.".toList)]
      ≠ [("Hello world.".toList), (" How are you?".toList), ("Fine.".toList)] := by
  decide

/-- Claim C4, amended: feeding `"Hello world. How are"` then
`" you? Fine."` and flushing yields exactly the completed units
`"Hello world."`, `"How are you?"`, `"Fine."`, in that order. -/
theorem claim_C4_amended :
    segUnits [("Hello world. How are".toList), (" you? Fine.".toList)]
      = [("Hello world.".toList), ("How are you?".toList), ("Fine.".toList)] := by
  decide

/-- Claim C3, counterexample: one feed of `"a. b"` followed by the flush
yields the units `"a."` and `"b"`, whose concatenation `"a.b"` differs
from the input `"a. b"` — the whitespace consumed at the split point is
stripped and lost. -/
theorem claim_C3_cex :
    (segUnits [("a. b".toList)]).flatten ≠ "a. b".toList := by decide

/-- Claim C3, amended: for every chunking of the input, concatenating all
completed units plus the final flushed leftover reconstructs the input
up to whitespace: the non-whitespace characters agree exactly (none
lost, none duplicated, order preserved); only whitespace adjacent to
split points and around the flushed remainder is dropped. -/
theorem claim_C3_amended (chunks : List (List Char)) :
    ((segUnits chunks).flatten).filter (fun c => !pyWhitespace c)
      = (chunks.flatten).filter (fun c => !pyWhitespace c) := by
  have h := segFeedAll_filter chunks []
  rw [List.nil_append] at h
  rw [show segUnits chunks
      = (segFeedAll [] chunks).2 ++ (segFlush (segFeedAll [] chunks).1).toList
    from rfl]
  cases hf : segFlush (segFeedAll [] chunks).1 with
  | none =>
    have hstrip : stripChars (segFeedAll [] chunks).1 = [] := by
      unfold segFlush at hf
      by_cases hc : stripChars (segFeedAll [] chunks).1 = []
      · exact hc
      · rw [if_neg hc] at hf; exact absurd hf (by simp)
    simp only [Option.toList_none, List.append_nil]
    rw [List.filter_append, strip_eq_nil_filter _ hstrip, List.append_nil] at h
    exact h
  | some u =>
    have hu : u = stripChars (segFeedAll [] chunks).1 := by
      unfold segFlush at hf
      by_cases hc : stripChars (segFeedAll [] chunks).1 = []
      · rw [if_pos hc] at hf; exact absurd hf (by simp)
      · rw [if_neg hc] at hf
        injection hf with hf
        exact hf.symm
    rw [List.flatten_append]
    simp only [Option.toList_some, List.flatten_cons, List.flatten_nil,
      List.append_nil]
    rw [List.filter_append, hu, filter_nonWs_strip, ← List.filter_append, h]

/-! ## Rate limiter claims -/

/-- Claim C5: for a key with `max_requests = 2` and `window_seconds = 60`,
three admit calls within one window yield allow, allow, deny, and a
subsequent call made after the window has elapsed yields allow again. -/
theorem claim_C5 (t1 t2 t3 t4 : Int) (h12 : t1 ≤ t2) (h23 : t2 ≤ t3)
    (hwin : t3 < t1 + 60) (hgap : t3 + 60 ≤ t4) :
    (rateLimitRun [] 2 60 [t1, t2, t3, t4]).map isAllow
      = [true, true, false, true] := by
  have k1 : decide (t2 - 60 < t1) = true := decide_eq_true (by omega)
  have k2 : decide (t3 - 60 < t1) = true := decide_eq_true (by omega)
  have k3 : decide (t3 - 60 < t2) = true := decide_eq_true (by omega)
  have k4 : decide (t4 - 60 < t1) = false := decide_eq_false (by omega)
  have k5 : decide (t4 - 60 < t2) = false := decide_eq_false (by omega)
  have s1 : check_rate_limit [] t1 2 60 = (RateDecision.allow, [t1]) := rfl
  have s2 : check_rate_limit [t1] t2 2 60 = (RateDecision.allow, [t1, t2]) := by
    simp [check_rate_limit, pruneWindow, k1]
  have s3 : check_rate_limit [t1, t2] t3 2 60
      = (RateDecision.deny (t1 - (t3 - 60)), [t1, t2]) := by
    simp [check_rate_limit, pruneWindow, k2, k3]
  have s4 : check_rate_limit [t1, t2] t4 2 60 = (RateDecision.allow, [t4]) := by
    simp [check_rate_limit, pruneWindow, k4, k5]
  simp [rateLimitRun, s1, s2, s3, s4, isAllow]

theorem claim_C5_witness :
    (rateLimitRun [] 2 60 [(0 : Int), 10, 20, 80]).map isAllow
      = [true, true, false, true] :=
  claim_C5 0 10 20 80 (by decide) (by decide) (by decide) (by decide)

/-- Claim C6, counterexample: at stored timestamps 0 and 10, `now = 20`,
`max_requests = 2`, `window_seconds = 60`, the call is denied and the
code reports `oldest - window_start = 0 - (-40) = 40` seconds, not
`window_start - oldest = -40` as the claim states — the claim's
subtraction is reversed. -/
theorem claim_C6_cex :
    (check_rate_limit [0, 10] 20 2 60).1 = RateDecision.deny 40 ∧
      ¬((40 : Int) = (20 - 60) - 0) := by
  decide

/-- Claim C6, amended: whenever an admit call is denied, the reported
retry-after duration equals the oldest timestamp surviving in the key's
window minus `window_start` (the oldest entry being the head of the
chronologically ordered stored list), where
`window_start = now - window_seconds`. -/
theorem claim_C6_amended (st : List Int) (now : Int) (maxR : Nat) (w r : Int)
    (hs : List.Pairwise (fun a b => a ≤ b) st) (hm : 1 ≤ maxR)
    (hd : (check_rate_limit st now maxR w).1 = RateDecision.deny r) :
    ∃ t0, (pruneWindow st (now - w)).head? = some t0 ∧
      (∀ t ∈ pruneWindow st (now - w), t0 ≤ t) ∧ r = t0 - (now - w) := by
  simp only [check_rate_limit] at hd
  by_cases hlen : maxR ≤ (pruneWindow st (now - w)).length
  · rw [if_pos hlen] at hd
    cases hp : pruneWindow st (now - w) with
    | nil => rw [hp] at hlen; simp at hlen; omega
    | cons t0 rest =>
      have hps : (pruneWindow st (now - w)).Pairwise (fun a b => a ≤ b) :=
        List.Pairwise.filter _ hs
      rw [hp] at hps hd
      refine ⟨t0, rfl, ?_, ?_⟩
      · intro t ht
        rcases List.mem_cons.mp ht with h | h
        · exact h ▸ le_refl t0
        · exact (List.pairwise_cons.mp hps).1 t h
      · simp only [List.headD_cons] at hd
        injection hd with hd
        omega
  · rw [if_neg hlen] at hd
    exact absurd hd (by simp)

theorem claim_C6_witness :
    ∃ t0, (pruneWindow [0, 10] ((20 : Int) - 60)).head? = some t0 ∧
      (∀ t ∈ pruneWindow [0, 10] ((20 : Int) - 60), t0 ≤ t) ∧
      (40 : Int) = t0 - (20 - 60) :=
  claim_C6_amended [0, 10] 20 2 60 40 (by decide) (by decide) (by decide)

/-- Claim C9: a denied admit call records nothing — the stored list after
the deny is exactly the pruned list (old entries dropped, `now` not
appended), and in particular a sublist of the list from before the call,
so repeated denied calls never extend the stored window. -/
theorem claim_C9 (st : List Int) (now : Int) (maxR : Nat) (w r : Int)
    (hd : (check_rate_limit st now maxR w).1 = RateDecision.deny r) :
    (check_rate_limit st now maxR w).2 = pruneWindow st (now - w) ∧
      List.Sublist (check_rate_limit st now maxR w).2 st := by
  simp only [check_rate_limit] at hd ⊢
  by_cases hlen : maxR ≤ (pruneWindow st (now - w)).length
  · rw [if_pos hlen]
    exact ⟨rfl, List.filter_sublist st⟩
  · rw [if_neg hlen] at hd
    exact absurd hd (by simp)

theorem claim_C9_witness :
    (check_rate_limit [0, 10] 20 2 60).2 = pruneWindow [0, 10] ((20 : Int) - 60) ∧
      List.Sublist (check_rate_limit [0, 10] 20 2 60).2 [0, 10] :=
  claim_C9 [0, 10] 20 2 60 40 (by decide)

/-! ## Model-identifier validation claim -/

/-- Claim C7, counterexample: a request whose model identifier
`"bad model!"` fails the `^[a-zA-Z0-9/_.-]+$` check is *not* rejected:
`stream_chat` only logs a warning and proceeds, and with valid messages
the handler reaches the streaming response (`Except.ok`) carrying no
model override. -/
theorem claim_C7_cex :
    sanitize_model_identifier ("bad model!".toList) = none ∧
      stream_chat_precheck (fun _ => CharacterLoad.notFound) none
        [(("user".toList), ("hi".toList))] (some ("bad model!".toList)) none
        = Except.ok ([(("user".toList), ("hi".toList))], none, none) := by
  constructor
  · decide
  · rfl

/-- Claim C7, amended: an inbound request whose model identifier fails
validation is not rejected before admission; provided its messages
survive sanitization (and no character is requested), `stream_chat`
starts the streaming session anyway, with no model override — the
service's active model is used. -/
theorem claim_C7_amended (charLoad : List Char → CharacterLoad)
    (activePrompt : Option (List Char))
    (messages : List (List Char × List Char)) (m : List Char)
    (hmsg : messages.filterMap (fun rc => sanitize_chat_message rc.1 rc.2) ≠ [])
    (hbad : sanitize_model_identifier m = none) :
    stream_chat_precheck charLoad activePrompt messages (some m) none
      = Except.ok
          (messages.filterMap (fun rc => sanitize_chat_message rc.1 rc.2),
            none, activePrompt) := by
  simp only [stream_chat_precheck]
  rw [if_neg hmsg, hbad]

theorem claim_C7_witness :
    stream_chat_precheck (fun _ => CharacterLoad.invalid) none
      [(("user".toList), ("hello".toList))] (some ("bad model name".toList)) none
      = Except.ok ([(("user".toList), ("hello".toList))], none, none) := by
  rw [claim_C7_amended (fun _ => CharacterLoad.invalid) none
    [(("user".toList), ("hello".toList))] ("bad model name".toList)
    (by decide) (by decide)]
  rfl

/-! ## `switch_model` claims -/

/-- `pySplit` never returns the empty list. -/
theorem pySplit_ne_nil (sep : Char) (l : List Char) : pySplit sep l ≠ [] := by
  cases l with
  | nil => simp [pySplit]
  | cons c rest =>
    simp only [pySplit]
    by_cases h : c = sep
    · simp [h]
    · rw [if_neg h]
      cases hm : pySplit sep rest with
      | nil => simp
      | cons p ps => simp

/-- `pySplit` yields more than one part exactly when the separator
occurs. -/
theorem pySplit_gt_one_iff (sep : Char) (l : List Char) :
    1 < (pySplit sep l).length ↔ sep ∈ l := by
  induction l with
  | nil => simp [pySplit]
  | cons c rest ih =>
    simp only [pySplit]
    by_cases h : c = sep
    · rw [if_pos h]
      have hne := pySplit_ne_nil sep rest
      have hpos : 0 < (pySplit sep rest).length := List.length_pos.mpr hne
      subst h
      simp only [List.length_cons, List.mem_cons]
      constructor
      · intro hx
        simp
      · intro hx
        omega
    · rw [if_neg h]
      cases hm : pySplit sep rest with
      | nil => exact absurd hm (pySplit_ne_nil sep rest)
      | cons p ps =>
        rw [hm] at ih
        simp only [List.length_cons] at ih ⊢
        simp only [List.mem_cons]
        constructor
        · intro hh
          right
          exact ih.mp hh
        · intro hh
          rcases hh with hh | hh
          · exact absurd hh.symm h
          · exact ih.mpr hh

/-- The first part of `pySplit` is the longest separator-free prefix. -/
theorem pySplit_headD (sep : Char) (l : List Char) :
    (pySplit sep l).headD [] = l.takeWhile (fun c => c != sep) := by
  induction l with
  | nil => rfl
  | cons c rest ih =>
    simp only [pySplit, List.takeWhile_cons]
    by_cases h : c = sep
    · rw [if_pos h]
      subst h
      simp
    · rw [if_neg h]
      cases hm : pySplit sep rest with
      | nil => exact absurd hm (pySplit_ne_nil sep rest)
      | cons p ps =>
        rw [hm] at ih
        simp only [List.headD_cons] at ih ⊢
        simp [h, ih]

/-- Claim C10, counterexample: `switch_model "gpt-4o"` returns `True` and
stores the model although the segment of `"gpt-4o"` before the first
`/` (the whole string, as it has no slash) is not one of the four
allowed providers — a slash-free model defaults to provider
`"openai"`. -/
theorem claim_C10_cex :
    (switch_model ⟨("ollama/llama3".toList), 0⟩ ("gpt-4o".toList)).1 = true ∧
      ¬(("gpt-4o".toList).takeWhile (fun c => c != '/') ∈ allowedProviders) := by
  decide

/-- Claim C10, amended: `switch_model new_model` returns `True` and sets
`active_model := new_model` exactly when `new_model` contains no `/`
(the provider then defaults to `"openai"`) or its segment before the
first `/` is one of ollama, lmstudio, openai, anthropic; otherwise it
returns `False` and `active_model` is unchanged; the only other service
state, the HTTP client handle, is untouched in either case. -/
theorem claim_C10_amended (svc : LiteLLMServiceState) (m : List Char) :
    ((switch_model svc m).1 = true
        ↔ ('/' ∉ m ∨ m.takeWhile (fun c => c != '/') ∈ allowedProviders))
      ∧ (switch_model svc m).2.active_model
          = (if (switch_model svc m).1 = true then m else svc.active_model)
      ∧ (switch_model svc m).2.http_client = svc.http_client := by
  refine ⟨?_, ?_, ?_⟩
  · unfold switch_model extract_provider
    by_cases hm : '/' ∈ m
    · have hgt : 1 < (pySplit '/' m).length := (pySplit_gt_one_iff '/' m).mpr hm
      rw [if_pos hgt, pySplit_headD]
      by_cases hp : m.takeWhile (fun c => c != '/') ∈ allowedProviders
      · simp [hp]
      · simp [hp, hm]
    · have hng : ¬1 < (pySplit '/' m).length :=
        fun hh => hm ((pySplit_gt_one_iff '/' m).mp hh)
      rw [if_neg hng,
        if_pos (show ("openai".toList) ∈ allowedProviders by decide)]
      simp [hm]
  · by_cases h : extract_provider m ∈ allowedProviders <;>
      simp [switch_model, h]
  · by_cases h : extract_provider m ∈ allowedProviders <;>
      simp [switch_model, h]

/-! ## Scan-cost claims -/

/-- A buffer without boundary characters has no match. -/
theorem sentenceMatchEnd_none_of_no_boundary (l : List Char)
    (h : ∀ c ∈ l, boundaryChar c = false) : sentenceMatchEnd l = none := by
  induction l with
  | nil => rfl
  | cons a t ih =>
    cases t with
    | nil => simp [sentenceMatchEnd, h a (by simp)]
    | cons d rest =>
      have ha : boundaryChar a = false := h a (by simp)
      have ht : ∀ c ∈ d :: rest, boundaryChar c = false := by
        intro c hc
        exact h c (by simp [hc])
      simp only [sentenceMatchEnd, ha, Bool.false_and, if_false]
      simp [ih ht]

/-- Searching a buffer without boundary characters examines every
position. -/
theorem scanCost_of_no_boundary (l : List Char)
    (h : ∀ c ∈ l, boundaryChar c = false) : scanCost l = l.length := by
  induction l with
  | nil => rfl
  | cons a t ih =>
    cases t with
    | nil => simp [scanCost]
    | cons d rest =>
      have ha : boundaryChar a = false := h a (by simp)
      have ht : ∀ c ∈ d :: rest, boundaryChar c = false := by
        intro c hc
        exact h c (by simp [hc])
      have hlen := ih ht
      simp [scanCost, ha, hlen]
      omega

/-- Feeding boundary-free text only grows the buffer. -/
theorem segFeed_no_boundary (buf s : List Char)
    (h : ∀ c ∈ buf ++ s, boundaryChar c = false) :
    segFeed buf s = (buf ++ s, none) := by
  unfold segFeed
  simp only [sentenceMatchEnd_none_of_no_boundary _ h]

/-- Total scan work for `n` one-character feeds of the boundary-free
character `a` on top of a buffer already holding `j` copies: twice the
cost is `n * (2 * j + n + 1)`, i.e. the cost is the sum
`(j+1) + (j+2) + ... + (j+n)` — every feed re-scans the whole buffer. -/
theorem segRunCost_replicate (n : Nat) : ∀ j : Nat,
    2 * segRunCost (List.replicate j 'a') (List.replicate n (['a']))
      = n * (2 * j + n + 1) := by
  induction n with
  | zero => intro j; simp [segRunCost]
  | succ n ih =>
    intro j
    have hrep : ∀ c ∈ List.replicate j 'a' ++ ['a'], boundaryChar c = false := by
      intro c hc
      have hc' : c = 'a' := by
        rcases List.mem_append.mp hc with h | h
        · exact List.eq_of_mem_replicate h
        · simpa using h
      subst hc'
      rfl
    have happ : List.replicate j 'a' ++ ['a'] = List.replicate (j + 1) 'a' :=
      (List.replicate_succ' _ _).symm
    rw [List.replicate_succ]
    simp only [segRunCost]
    rw [segFeed_no_boundary _ _ hrep, scanCost_of_no_boundary _ hrep]
    simp only [happ, List.length_replicate]
    have h2 := ih (j + 1)
    zify at h2 ⊢
    linear_combination h2

/-- Claim C8, counterexample: two one-character feeds `"a"`, `"b"` (total
length 2) cost 3 position examinations — the second feed re-scans the
byte the first feed already checked, so scan work is not bounded by the
total input length. -/
theorem claim_C8_cex :
    segRunCost [] [(['a']), (['b'])] = 3 ∧
      ¬(segRunCost [] [(['a']), (['b'])]
          ≤ ([(['a']), (['b'])].flatten).length) := by
  decide

/-- Claim C8, amended: the segmenter keeps no cursor — each feed re-runs
the search over the whole accumulated buffer from position 0 — so
token-by-token delivery degrades quadratically: for `n` one-character
boundary-free feeds the total scan work is `n * (n + 1) / 2`
(stated doubled to stay in integers), i.e. Θ(L·N), not O(L). -/
theorem claim_C8_amended (n : Nat) :
    2 * segRunCost [] (List.replicate n (['a'])) = n * (n + 1) := by
  have h := segRunCost_replicate n 0
  simpa using h

/-! ## SSE pipeline claims -/

/-- A content event is not terminal. -/
theorem isContent_not_terminal (e : SSEEvent) (h : isContentEv e = true) :
    isTerminalEv e = false := by
  cases e <;> first | rfl | simp [isContentEv] at h

/-- The per-chunk delta events are content events. -/
theorem deltaEvents_content (san : List Char → List Char) (ch : ProviderChunk) :
    ∀ e ∈ deltaEvents san ch, isContentEv e = true := by
  intro e he
  cases hc : ch.content with
  | none => simp [deltaEvents, hc] at he
  | some c =>
    by_cases h0 : c = []
    · simp [deltaEvents, hc, h0] at he
    · simp [deltaEvents, hc, h0] at he
      subst he
      rfl

/-- A list of content events contains no terminal event. -/
theorem countP_zero_of_content (l : List SSEEvent)
    (h : ∀ e ∈ l, isContentEv e = true) : l.countP isTerminalEv = 0 := by
  induction l with
  | nil => rfl
  | cons e t ih =>
    have h1 := isContent_not_terminal e (h e (by simp))
    have h2 : ∀ x ∈ t, isContentEv x = true := fun x hx => h x (by simp [hx])
    simp [List.countP_cons, h1, ih h2]

/-- Structure of `generate_stream` output: a list of content events
followed by the terminal tail `gsEnd`. -/
theorem generate_stream_shape (san : List Char → List Char)
    (chunks : List ProviderChunk) (ek : StreamEnd) :
    ∃ pre : List SSEEvent, (∀ e ∈ pre, isContentEv e = true) ∧
      generate_stream san chunks ek = pre ++ gsEnd chunks ek := by
  induction chunks with
  | nil =>
    refine ⟨[], by simp, ?_⟩
    cases ek <;> simp [generate_stream, gsEnd]
  | cons ch rest ih =>
    obtain ⟨pre, hpre, heq⟩ := ih
    by_cases hf : ch.finish_reason = true
    · refine ⟨deltaEvents san ch, deltaEvents_content san ch, ?_⟩
      have hany : (ch :: rest).any (fun c => c.finish_reason) = true := by
        simp [List.any_cons, hf]
      simp [generate_stream, hf, gsEnd, hany]
    · have hf' : ch.finish_reason = false := by
        cases hcc : ch.finish_reason
        · rfl
        · exact absurd hcc hf
      refine ⟨deltaEvents san ch ++ pre, ?_, ?_⟩
      · intro e he
        rcases List.mem_append.mp he with h | h
        · exact deltaEvents_content san ch e h
        · exact hpre e h
      · have hany : (ch :: rest).any (fun c => c.finish_reason)
            = rest.any (fun c => c.finish_reason) := by
          simp [List.any_cons, hf']
        simp only [generate_stream, hf', if_false, heq, gsEnd, hany,
          List.append_assoc, Bool.false_eq_true]

/-- One chunking step emits as many terminal events as it consumes. -/
theorem chunkingStep_count (buf : List Char) (e : SSEEvent) :
    ((chunkingStep buf e).1).countP isTerminalEv
      = (if isTerminalEv e = true then 1 else 0) := by
  cases e with
  | content c s0 =>
    rcases hsf : segFeed buf c with ⟨b2, u⟩
    cases u <;>
      simp [chunkingStep, hsf, isTerminalEv, List.countP_cons]
  | done =>
    cases hfl : segFlush buf <;>
      simp [chunkingStep, hfl, isTerminalEv, List.countP_cons]
  | provider_connected => simp [chunkingStep, isTerminalEv, List.countP_cons]
  | error => simp [chunkingStep, isTerminalEv, List.countP_cons]
  | fatal_error => simp [chunkingStep, isTerminalEv, List.countP_cons]

/-- The chunking layer preserves the number of terminal events. -/
theorem chunkingRun_count (evs : List SSEEvent) : ∀ buf : List Char,
    ((chunkingRun buf evs).1).countP isTerminalEv
      = evs.countP isTerminalEv := by
  induction evs with
  | nil => intro buf; rfl
  | cons e rest ih =>
    intro buf
    simp only [chunkingRun]
    rw [List.countP_append, chunkingStep_count, ih, List.countP_cons,
      Nat.add_comm]

/-- The chunking of a content event yields only content events. -/
theorem chunkingStep_content_out (buf c : List Char) (s0 : Option (List Char)) :
    ∀ e ∈ (chunkingStep buf (SSEEvent.content c s0)).1, isContentEv e = true := by
  intro e he
  rcases hsf : segFeed buf c with ⟨b2, u⟩
  cases u with
  | none => simp [chunkingStep, hsf] at he; subst he; rfl
  | some un => simp [chunkingStep, hsf] at he; subst he; rfl

/-- The chunking of a list of content events yields only content
events. -/
theorem chunkingRun_content (evs : List SSEEvent)
    (h : ∀ e ∈ evs, isContentEv e = true) : ∀ buf : List Char,
    ∀ e ∈ (chunkingRun buf evs).1, isContentEv e = true := by
  induction evs with
  | nil => intro buf e he; simp [chunkingRun] at he
  | cons x rest ih =>
    intro buf e he
    simp only [chunkingRun] at he
    have hrest : ∀ y ∈ rest, isContentEv y = true := fun y hy => h y (by simp [hy])
    rcases List.mem_append.mp he with hh | hh
    · have hx : isContentEv x = true := h x (by simp)
      cases x with
      | content c s0 => exact chunkingStep_content_out buf c s0 e hh
      | provider_connected => simp [isContentEv] at hx
      | done => simp [isContentEv] at hx
      | error => simp [isContentEv] at hx
      | fatal_error => simp [isContentEv] at hx
    · exact ih hrest (chunkingStep buf x).2 e hh

/-- The chunking layer distributes over appending event lists. -/
theorem chunkingRun_append (l1 l2 : List SSEEvent) : ∀ buf : List Char,
    (chunkingRun buf (l1 ++ l2)).1
        = (chunkingRun buf l1).1 ++ (chunkingRun (chunkingRun buf l1).2 l2).1
      ∧ (chunkingRun buf (l1 ++ l2)).2 = (chunkingRun (chunkingRun buf l1).2 l2).2 := by
  induction l1 with
  | nil => intro buf; simp [chunkingRun]
  | cons e rest ih =>
    intro buf
    simp only [List.cons_append, chunkingRun]
    simp only [List.append_eq]
    obtain ⟨h1, h2⟩ := ih (chunkingStep buf e).2
    constructor
    · rw [h1, List.append_assoc]
    · exact h2

/-- Droplast membership implies list membership. -/
theorem mem_of_mem_dropLast {α : Type} (l : List α) (e : α)
    (h : e ∈ l.dropLast) : e ∈ l :=
  (List.dropLast_sublist l).subset h

/-- Everything before the terminal tail of an SSE output is
non-terminal. -/
theorem no_terminal_before_tail (A tl : List SSEEvent)
    (hA : ∀ e ∈ A, isContentEv e = true)
    (htl : ∀ e ∈ tl.dropLast, isTerminalEv e = false) :
    ∀ e ∈ (SSEEvent.provider_connected :: (A ++ tl)).dropLast,
      isTerminalEv e = false := by
  intro e he
  cases htn : tl with
  | nil =>
    subst htn
    rw [List.append_nil] at he
    have hmem : e ∈ SSEEvent.provider_connected :: A := mem_of_mem_dropLast _ _ he
    rcases List.mem_cons.mp hmem with h | h
    · subst h; rfl
    · exact isContent_not_terminal e (hA e h)
  | cons t ts =>
    subst htn
    rw [show SSEEvent.provider_connected :: (A ++ t :: ts)
        = (SSEEvent.provider_connected :: A) ++ t :: ts by simp] at he
    rw [List.dropLast_append_cons] at he
    rcases List.mem_append.mp he with h | h
    · rcases List.mem_cons.mp h with h | h
      · subst h; rfl
      · exact isContent_not_terminal e (hA e h)
    · exact htl e h

/-- Claim C1, counterexample: a connected session whose provider stream
delivers one content chunk and then simply ends — no `finish_reason`, no
exception (a hangup surfacing as a clean end of the async iterator) —
produces the events `provider_connected`, `content` and then nothing:
zero terminal events, not exactly one; the sequence ends silently. -/
theorem claim_C1_cex :
    (generate_sse (fun s => s) true [⟨some ("hi".toList), false⟩]
        StreamEnd.exhausted).countP isTerminalEv = 0 := by
  decide

/-- Claim C1, amended: no event ever follows a terminal event and at most
one terminal event is emitted per session; but exactly one is emitted
only when the pre-stream probe fails, some chunk carries a
`finish_reason`, or the provider stream raises an ordinary exception —
a provider stream that ends without `finish_reason` (hangup surfacing
as clean iterator end) or is cancelled produces no terminal event at
all, ending the sequence silently. -/
theorem claim_C1_amended (san : List Char → List Char) (connected : Bool)
    (chunks : List ProviderChunk) (ek : StreamEnd) :
    (∀ e ∈ (generate_sse san connected chunks ek).dropLast, isTerminalEv e = false)
      ∧ (generate_sse san connected chunks ek).countP isTerminalEv ≤ 1
      ∧ ((generate_sse san connected chunks ek).countP isTerminalEv = 1
          ↔ (connected = false
              ∨ chunks.any (fun c => c.finish_reason) = true
              ∨ ek = StreamEnd.raised)) := by
  cases connected with
  | false =>
    refine ⟨?_, ?_, ?_⟩
    · intro e he
      simp [generate_sse] at he
    · simp [generate_sse, isTerminalEv, List.countP_cons]
    · simp [generate_sse, isTerminalEv, List.countP_cons]
  | true =>
    obtain ⟨pre, hpre, heq⟩ := generate_stream_shape san chunks ek
    have hout : generate_sse san true chunks ek
        = SSEEvent.provider_connected
            :: ((chunkingRun [] pre).1
              ++ (chunkingRun (chunkingRun [] pre).2 (gsEnd chunks ek)).1) := by
      simp only [generate_sse, if_true, generate_stream_with_sentence_chunking,
        heq]
      rw [(chunkingRun_append pre (gsEnd chunks ek) []).1]
    have hA : ∀ e ∈ (chunkingRun [] pre).1, isContentEv e = true :=
      chunkingRun_content pre hpre []
    have hAcount : ((chunkingRun [] pre).1).countP isTerminalEv = 0 := by
      rw [chunkingRun_count]
      exact countP_zero_of_content pre hpre
    have hcount : ∀ tl : List SSEEvent,
        (SSEEvent.provider_connected :: ((chunkingRun [] pre).1 ++ tl)).countP
            isTerminalEv
          = tl.countP isTerminalEv := by
      intro tl
      rw [List.countP_cons, List.countP_append, hAcount]
      simp [isTerminalEv]
    by_cases hany : chunks.any (fun c => c.finish_reason) = true
    · have hend : gsEnd chunks ek = [SSEEvent.done] := by simp [gsEnd, hany]
      rw [hend] at hout
      cases hfl : segFlush (chunkingRun [] pre).2 with
      | some u =>
        have hB : (chunkingRun (chunkingRun [] pre).2 [SSEEvent.done]).1
            = [SSEEvent.content [] (some u), SSEEvent.done] := by
          simp [chunkingRun, chunkingStep, hfl]
        rw [hB] at hout
        refine ⟨?_, ?_, ?_⟩
        · rw [hout]
          apply no_terminal_before_tail _ _ hA
          intro e he
          simp at he
          subst he
          rfl
        · rw [hout, hcount]
          simp [List.countP_cons, isTerminalEv]
        · rw [hout, hcount]
          simp [List.countP_cons, isTerminalEv, hany]
      | none =>
        have hB : (chunkingRun (chunkingRun [] pre).2 [SSEEvent.done]).1
            = [SSEEvent.done] := by
          simp [chunkingRun, chunkingStep, hfl]
        rw [hB] at hout
        refine ⟨?_, ?_, ?_⟩
        · rw [hout]
          apply no_terminal_before_tail _ _ hA
          intro e he
          simp at he
        · rw [hout, hcount]
          simp [List.countP_cons, isTerminalEv]
        · rw [hout, hcount]
          simp [List.countP_cons, isTerminalEv, hany]
    · by_cases hek : ek = StreamEnd.raised
      · have hend : gsEnd chunks ek = [SSEEvent.error] := by
          simp [gsEnd, hany, hek]
        rw [hend] at hout
        have hB : (chunkingRun (chunkingRun [] pre).2 [SSEEvent.error]).1
            = [SSEEvent.error] := by
          simp [chunkingRun, chunkingStep]
        rw [hB] at hout
        refine ⟨?_, ?_, ?_⟩
        · rw [hout]
          apply no_terminal_before_tail _ _ hA
          intro e he
          simp at he
        · rw [hout, hcount]
          simp [List.countP_cons, isTerminalEv]
        · rw [hout, hcount]
          simp [List.countP_cons, isTerminalEv, hek]
      · have hend : gsEnd chunks ek = [] := by
          simp [gsEnd, hany, hek]
        rw [hend] at hout
        have hB : (chunkingRun (chunkingRun [] pre).2
            ([] : List SSEEvent)).1 = [] := by
          simp [chunkingRun]
        rw [hB] at hout
        refine ⟨?_, ?_, ?_⟩
        · rw [hout]
          apply no_terminal_before_tail _ _ hA
          intro e he
          simp at he
        · rw [hout, hcount]
          simp
        · rw [hout, hcount]
          simp [hany, hek]
